import Mathlib

/-!
Shallow embedding of the concept-clustering engine, the inverted-index
builder and the query-expansion engine of the optometry/ophthalmology
synonym-dataset repository.

Sources embedded:
- generar_lista_id.py: normalize_term, build_concept_map (canonical groups
  from siglas_medicas.json, mergeable groups from sinonimos.yml and
  siglas_optometria.csv, first-match-wins merging, suffix stripping,
  identifier assignment, case-insensitive sorting).
- generar_indice_invertido.py: build_inverted_index.
- ejemplo_busqueda.py: SynonymExpander.expand_term.

Modelling conventions: Python str values are Lean String; Python sets of
strings are modelled as duplicate-free lists in first-insertion order
(Python leaves set iteration order unspecified; every order-sensitive
consumer in the source sorts, except the stable sort keyed on lower-casing,
whose tie order is therefore model-specific); Python dicts are association
lists in insertion order; str.strip is trimming of whitespace characters on
both ends; string comparison is lexicographic on code points, as in Python.
All definitions are computable so concrete runs can be evaluated by decide.
-/

namespace Tesauro

/-- Model of Python str.strip on the character list of a string. -/
def stripList (cs : List Char) : List Char :=
  ((cs.dropWhile Char.isWhitespace).reverse.dropWhile Char.isWhitespace).reverse

/-- normalize_term from generar_lista_id.py: term.strip(). -/
def normalize_term (t : String) : String := ⟨stripList t.data⟩

/-- Adding one element to a Python set modelled as a dedup list. -/
def pyAdd (acc : List String) (t : String) : List String :=
  if t ∈ acc then acc else acc ++ [t]

/-- Model of Python set(l): deduplicate, keeping first occurrences. -/
def pyset (l : List String) : List String := l.foldl pyAdd []

/-- Model of Python set union a | b. -/
def setUnion (a b : List String) : List String := b.foldl pyAdd a

/-- The normalized, deduplicated term set of one raw group:
set(normalize_term(t) for t in terms if normalize_term(t)). -/
def normalizeGroup (terms : List String) : List String :=
  pyset ((terms.map normalize_term).filter (fun t => t ≠ ""))

/-- Model of nonempty set intersection: normalized & existing_concept. -/
def intersects (a b : List String) : Bool := a.any (fun t => decide (t ∈ b))

/-- One mergeable-group step of build_concept_map: scan active concepts in
creation order, union the group into the first concept sharing a term and
stop; append the group as a new concept if none intersects. -/
def mergeInto : List (List String) → List String → List (List String)
  | [], s => [s]
  | c :: cs, s => if intersects s c then setUnion c s :: cs else c :: mergeInto cs s

/-- Step 1 of build_concept_map: canonical groups from siglas_medicas.json
are appended unconditionally, never merged. -/
def processCanonical (siglas_json : List (String × List String)) : List (List String) :=
  siglas_json.foldl (fun concepts p =>
    let normalized := normalizeGroup (p.1 :: p.2)
    if normalized = [] then concepts else concepts ++ [normalized]) []

/-- Steps 2 and 3 of build_concept_map: fold mergeable groups into the
active concept list; groups normalizing to the empty set are dropped. -/
def processMergeable (concepts : List (List String)) (groups : List (List String)) :
    List (List String) :=
  groups.foldl (fun cs g =>
    let normalized := normalizeGroup g
    if normalized = [] then cs else mergeInto cs normalized) concepts

/-- Model of re.sub applied with pattern hyphen-digits-end: if the string
ends in a non-empty digit run preceded by a hyphen, drop the hyphen and
the run; otherwise leave the string unchanged. -/
def stripSuffix (t : String) : String :=
  if t.data.reverse.takeWhile Char.isDigit = [] then t
  else
    match t.data.reverse.dropWhile Char.isDigit with
    | '-' :: rest => ⟨rest.reverse⟩
    | _ => t

/-- Concept identifier C%04d for a 1-based index. -/
def conceptId (idx : Nat) : String :=
  let s := toString idx
  let pad := if s.length < 4 then String.mk (List.replicate (4 - s.length) '0') else ""
  "C" ++ pad ++ s

/-- Model of Char lower-casing as used by str.lower on ASCII letters. -/
def lowerChar (c : Char) : Char :=
  if 'A' ≤ c ∧ c ≤ 'Z' then Char.ofNat (c.toNat + 32) else c

/-- Model of str.lower. -/
def lowerStr (s : String) : String := ⟨s.data.map lowerChar⟩

/-- Strict lexicographic comparison of character lists by code point,
the comparison Python uses on str. -/
def lexLt : List Char → List Char → Bool
  | _, [] => false
  | [], _ :: _ => true
  | a :: as, b :: bs => if a < b then true else if b < a then false else lexLt as bs

/-- Strict string comparison by code points. -/
def strLt (s t : String) : Bool := lexLt s.data t.data

/-- Stable insertion for the model of Python sorted with a key function:
the new element goes after every element whose key is not greater. -/
def insertByKey (key : String → String) (x : String) : List String → List String
  | [] => [x]
  | y :: ys => if strLt (key x) (key y) then x :: y :: ys else y :: insertByKey key x ys

/-- Model of Python sorted(l, key): stable, ascending by key. -/
def sortByKey (key : String → String) (l : List String) : List String :=
  l.foldl (fun acc x => insertByKey key x acc) []

/-- sorted(terms, key=lambda x: x.lower()). -/
def sortTerms (l : List String) : List String := sortByKey lowerStr l

/-- sorted(l) on plain strings. -/
def sortStrings (l : List String) : List String := sortByKey (fun s => s) l

/-- Final phase of build_concept_map: assign C%04d identifiers in list
order, strip hyphen-digit suffixes (collapsing duplicates via a set), and
sort each member list case-insensitively. -/
def finalizeConcepts (concepts : List (List String)) : List (String × List String) :=
  concepts.enum.map (fun p =>
    (conceptId (p.1 + 1), sortTerms (pyset (p.2.map stripSuffix))))

/-- build_concept_map from generar_lista_id.py.  siglas_json is the items
sequence of the canonical dict; siglas_csv rows become two-term groups. -/
def build_concept_map (sinonimos : List (List String))
    (siglas_json : List (String × List String))
    (siglas_csv : List (String × String)) : List (String × List String) :=
  finalizeConcepts
    (processMergeable (processMergeable (processCanonical siglas_json) sinonimos)
      (siglas_csv.map (fun p => [p.1, p.2])))

/-- One entry of the inverted index. -/
structure IndexEntry where
  concept_ids : List String
  is_ambiguous : Bool
deriving DecidableEq, Repr

/-- The (stripped term, concept id) pairs recorded by build_inverted_index:
for each concept and each member term, strip it and keep it if non-empty. -/
def indexPairs (synonyms : List (String × List String)) : List (String × String) :=
  synonyms.flatMap (fun p =>
    ((p.2.map normalize_term).filter (fun t => t ≠ "")).map (fun t => (t, p.1)))

/-- The sorted set of concept ids recorded under one term. -/
def cidsFor (synonyms : List (String × List String)) (t : String) : List String :=
  sortStrings (pyset (((indexPairs synonyms).filter (fun q => decide (q.1 = t))).map Prod.snd))

/-- The sorted set of terms that receive an index entry. -/
def indexKeys (synonyms : List (String × List String)) : List String :=
  sortStrings (pyset ((indexPairs synonyms).map Prod.fst))

/-- build_inverted_index from generar_indice_invertido.py. -/
def build_inverted_index (synonyms : List (String × List String)) :
    List (String × IndexEntry) :=
  (indexKeys synonyms).map (fun t =>
    (t, { concept_ids := cidsFor synonyms t,
          is_ambiguous := decide (1 < (cidsFor synonyms t).length) }))

/-- Lookup in a Python dict modelled as an association list. -/
def lookupStr {β : Type} (l : List (String × β)) (k : String) : Option β :=
  match l.find? (fun p => decide (p.1 = k)) with
  | some p => some p.2
  | none => none

/-- The record returned by SynonymExpander.expand_term. -/
structure ExpansionResult where
  original : String
  found : Bool
  is_ambiguous : Bool
  concept_ids : List String
  expanded_terms : List String
  query : String
deriving DecidableEq, Repr

/-- Wrap a term in double quotes when it contains a space character. -/
def quoteIfSpace (t : String) : String :=
  if t.data.contains ' ' then "\"" ++ t ++ "\"" else t

/-- The union of the member lists of the listed concepts, skipping concept
ids absent from the synonyms map (all_synonyms accumulation). -/
def unionSynonyms (synonyms : List (String × List String)) (cids : List String) :
    List String :=
  cids.foldl (fun acc cid =>
    match lookupStr synonyms cid with
    | some ts => setUnion acc ts
    | none => acc) []

/-- SynonymExpander.expand_term from ejemplo_busqueda.py. -/
def expand_term (synonyms : List (String × List String))
    (inverted_index : List (String × IndexEntry)) (term : String) : ExpansionResult :=
  match lookupStr inverted_index term with
  | none =>
    { original := term, found := false, is_ambiguous := false, concept_ids := [],
      expanded_terms := [term], query := "\"" ++ term ++ "\"" }
  | some entry =>
    let all_synonyms := unionSynonyms synonyms entry.concept_ids
    let query :=
      if 0 < all_synonyms.length then
        "(" ++ String.intercalate " OR " ((sortStrings all_synonyms).map quoteIfSpace) ++ ")"
      else term
    { original := term, found := true, is_ambiguous := entry.is_ambiguous,
      concept_ids := entry.concept_ids, expanded_terms := all_synonyms, query := query }

/-- Case-insensitive comparison key order used for concept member lists. -/
def leLower (a b : String) : Prop := strLt (lowerStr b) (lowerStr a) = false

/-- Plain code-point order used for sorted string sequences. -/
def leStr (a b : String) : Prop := strLt b a = false

/-! Lemmas about the Python-set model. -/

theorem mem_pyAdd {acc : List String} {a x : String} :
    x ∈ pyAdd acc a ↔ x ∈ acc ∨ x = a := by
  unfold pyAdd
  split
  next h => exact ⟨Or.inl, fun hx => hx.elim id (fun he => he ▸ h)⟩
  next h => simp [List.mem_append]

theorem nodup_pyAdd {acc : List String} {a : String} (h : acc.Nodup) :
    (pyAdd acc a).Nodup := by
  unfold pyAdd
  split
  next => exact h
  next hna =>
    simp only [List.nodup_append, List.nodup_cons, List.not_mem_nil, not_false_iff,
      List.nodup_nil, and_true, true_and]
    exact ⟨h, fun x hx hx1 => hna ((List.mem_singleton.mp hx1) ▸ hx)⟩

theorem mem_foldl_pyAdd (l acc : List String) (x : String) :
    x ∈ l.foldl pyAdd acc ↔ x ∈ acc ∨ x ∈ l := by
  induction l generalizing acc with
  | nil => simp
  | cons a as ih =>
    rw [List.foldl_cons, ih]
    rw [mem_pyAdd]
    simp only [List.mem_cons]
    tauto

theorem nodup_foldl_pyAdd (l : List String) {acc : List String} (h : acc.Nodup) :
    (l.foldl pyAdd acc).Nodup := by
  induction l generalizing acc with
  | nil => exact h
  | cons a as ih => exact ih (nodup_pyAdd h)

theorem mem_pyset {l : List String} {x : String} : x ∈ pyset l ↔ x ∈ l := by
  unfold pyset
  rw [mem_foldl_pyAdd]
  simp

theorem nodup_pyset (l : List String) : (pyset l).Nodup :=
  nodup_foldl_pyAdd l List.nodup_nil

theorem mem_setUnion {a b : List String} {x : String} :
    x ∈ setUnion a b ↔ x ∈ a ∨ x ∈ b := mem_foldl_pyAdd b a x

theorem nodup_setUnion {a : List String} (b : List String) (h : a.Nodup) :
    (setUnion a b).Nodup := nodup_foldl_pyAdd b h

theorem mem_normalizeGroup {g : List String} {x : String} :
    x ∈ normalizeGroup g ↔ (∃ r ∈ g, normalize_term r = x) ∧ x ≠ "" := by
  unfold normalizeGroup
  rw [mem_pyset]
  simp only [List.mem_filter, List.mem_map, decide_eq_true_eq]

/-! Lemmas about code-point lexicographic comparison. -/

theorem lexLt_asymm : ∀ {l1 l2 : List Char}, lexLt l1 l2 = true → lexLt l2 l1 = false
  | _, [], h => by simp [lexLt] at h
  | [], _ :: _, _ => by simp [lexLt]
  | a :: as, b :: bs, h => by
    by_cases hab : a < b
    · have hba : ¬ b < a := lt_asymm hab
      simp [lexLt, hba, hab]
    · by_cases hba : b < a
      · simp [lexLt, hab, hba] at h
      · have := @lexLt_asymm as bs (by simpa [lexLt, hab, hba] using h)
        simp [lexLt, hab, hba, this]

theorem lexLt_trans : ∀ {l1 l2 l3 : List Char},
    lexLt l1 l2 = true → lexLt l2 l3 = true → lexLt l1 l3 = true
  | _, _, [], _, h2 => by
    cases h : lexLt _ ([] : List Char) <;> simp_all [lexLt]
  | _, [], _, h1, _ => by simp [lexLt] at h1
  | [], _ :: _, _ :: _, _, _ => by simp [lexLt]
  | a :: as, b :: bs, c :: cs, h1, h2 => by
    by_cases hab : a < b
    · by_cases hbc : b < c
      · simp [lexLt, lt_trans hab hbc]
      · by_cases hcb : c < b
        · simp [lexLt, hbc, hcb] at h2
        · have hbc2 : b = c := le_antisymm (not_lt.mp hcb) (not_lt.mp hbc)
          simp [lexLt, hbc2 ▸ hab]
    · by_cases hba : b < a
      · simp [lexLt, hab, hba] at h1
      · have hab2 : a = b := le_antisymm (not_lt.mp hba) (not_lt.mp hab)
        subst hab2
        by_cases hac : a < c
        · simp [lexLt, hac]
        · by_cases hca : c < a
          · simp [lexLt, hac, hca] at h2
          · have h1t : lexLt as bs = true := by simpa [lexLt, hab, hba] using h1
            have h2t : lexLt bs cs = true := by simpa [lexLt, hac, hca] using h2
            simp [lexLt, hac, hca, lexLt_trans h1t h2t]

theorem lexLt_antisymm : ∀ {l1 l2 : List Char},
    lexLt l1 l2 = false → lexLt l2 l1 = false → l1 = l2
  | [], [], _, _ => rfl
  | [], _ :: _, h1, _ => by simp [lexLt] at h1
  | _ :: _, [], _, h2 => by simp [lexLt] at h2
  | a :: as, b :: bs, h1, h2 => by
    by_cases hab : a < b
    · simp [lexLt, hab] at h1
    · by_cases hba : b < a
      · simp [lexLt, hba] at h2
      · have hab2 : a = b := le_antisymm (not_lt.mp hba) (not_lt.mp hab)
        subst hab2
        have h1t : lexLt as bs = false := by simpa [lexLt, hab] using h1
        have h2t : lexLt bs as = false := by simpa [lexLt, hab] using h2
        rw [lexLt_antisymm h1t h2t]

theorem strLt_asymm {a b : String} (h : strLt a b = true) : strLt b a = false :=
  lexLt_asymm h

theorem leStr_total (a b : String) : leStr a b ∨ leStr b a := by
  unfold leStr
  cases h : strLt b a
  · exact Or.inl rfl
  · exact Or.inr (strLt_asymm h)

theorem leStr_antisymm {a b : String} (h1 : leStr a b) (h2 : leStr b a) : a = b := by
  exact String.ext (lexLt_antisymm h2 h1)

instance : IsAntisymm String leStr := ⟨fun _ _ h1 h2 => leStr_antisymm h1 h2⟩

/-! Lemmas about the model of the stable key-based sort. -/

theorem perm_insertByKey (key : String → String) (x : String) :
    ∀ l : List String, (insertByKey key x l).Perm (x :: l)
  | [] => List.Perm.refl _
  | y :: ys => by
    unfold insertByKey
    split
    · exact List.Perm.refl _
    · exact ((perm_insertByKey key x ys).cons y).trans (List.Perm.swap x y ys)

theorem mem_insertByKey {key : String → String} {x z : String} {l : List String} :
    z ∈ insertByKey key x l ↔ z = x ∨ z ∈ l := by
  rw [(perm_insertByKey key x l).mem_iff]
  simp

theorem perm_sortByKey_aux (key : String → String) :
    ∀ (l acc : List String),
      (l.foldl (fun acc x => insertByKey key x acc) acc).Perm (acc ++ l)
  | [], acc => by simp
  | x :: xs, acc => by
    rw [List.foldl_cons]
    refine (perm_sortByKey_aux key xs (insertByKey key x acc)).trans ?_
    refine (((perm_insertByKey key x acc).append_right xs).trans ?_)
    exact List.perm_middle.symm

theorem perm_sortByKey (key : String → String) (l : List String) :
    (sortByKey key l).Perm l := by
  simpa using perm_sortByKey_aux key l []

theorem pairwise_insertByKey {key : String → String} {x : String} {l : List String}
    (h : l.Pairwise (fun a b => strLt (key b) (key a) = false)) :
    (insertByKey key x l).Pairwise (fun a b => strLt (key b) (key a) = false) := by
  induction l with
  | nil => simp [insertByKey]
  | cons y ys ih =>
    rw [List.pairwise_cons] at h
    unfold insertByKey
    split
    next hlt =>
      refine List.pairwise_cons.mpr ⟨?_, List.pairwise_cons.mpr h⟩
      intro z hz
      rcases List.mem_cons.mp hz with rfl | hz2
      · exact strLt_asymm hlt
      · cases hzx : strLt (key z) (key x) with
        | false => rfl
        | true =>
          have : strLt (key z) (key y) = true := lexLt_trans hzx hlt
          rw [h.1 z hz2] at this
          cases this
    next hnlt =>
      refine List.pairwise_cons.mpr ⟨?_, ih h.2⟩
      intro z hz
      rcases mem_insertByKey.mp hz with rfl | hz2
      · simpa using hnlt
      · exact h.1 z hz2

theorem pairwise_sortByKey_aux (key : String → String) :
    ∀ (l acc : List String),
      acc.Pairwise (fun a b => strLt (key b) (key a) = false) →
      (l.foldl (fun acc x => insertByKey key x acc) acc).Pairwise
        (fun a b => strLt (key b) (key a) = false)
  | [], _, h => h
  | x :: xs, acc, h =>
    pairwise_sortByKey_aux key xs (insertByKey key x acc) (pairwise_insertByKey h)

theorem pairwise_sortByKey (key : String → String) (l : List String) :
    (sortByKey key l).Pairwise (fun a b => strLt (key b) (key a) = false) :=
  pairwise_sortByKey_aux key l [] (List.Pairwise.nil)

theorem sortStrings_sorted (l : List String) : (sortStrings l).Pairwise leStr :=
  pairwise_sortByKey (fun s => s) l

theorem sortTerms_sorted (l : List String) : (sortTerms l).Pairwise leLower :=
  pairwise_sortByKey lowerStr l

theorem mem_sortByKey {key : String → String} {l : List String} {x : String} :
    x ∈ sortByKey key l ↔ x ∈ l := (perm_sortByKey key l).mem_iff

theorem sortStrings_eq_of_perm {l1 l2 : List String} (h : l1.Perm l2) :
    sortStrings l1 = sortStrings l2 := by
  refine List.eq_of_perm_of_sorted ?_ (sortStrings_sorted l1) (sortStrings_sorted l2)
  exact ((perm_sortByKey _ l1).trans h).trans (perm_sortByKey _ l2).symm

/-! Lemmas about the first-match-wins merge step. -/

theorem mergeInto_first_match :
    ∀ (pre : List (List String)) (c : List String) (post : List (List String))
      (s : List String),
      (∀ c2 ∈ pre, intersects s c2 = false) → intersects s c = true →
      mergeInto (pre ++ c :: post) s = pre ++ setUnion c s :: post
  | [], c, post, s, _, hc => by simp [mergeInto, hc]
  | p :: ps, c, post, s, hpre, hc => by
    have hp : intersects s p = false := hpre p (List.mem_cons_self p ps)
    have ih := mergeInto_first_match ps c post s
      (fun c2 hc2 => hpre c2 (List.mem_cons_of_mem p hc2)) hc
    simp [mergeInto, hp, ih]

theorem mergeInto_no_match :
    ∀ (cs : List (List String)) (s : List String),
      (∀ c ∈ cs, intersects s c = false) → mergeInto cs s = cs ++ [s]
  | [], s, _ => rfl
  | c :: cs, s, h => by
    have hc : intersects s c = false := h c (List.mem_cons_self c cs)
    have ih := mergeInto_no_match cs s (fun c2 hc2 => h c2 (List.mem_cons_of_mem c hc2))
    simp [mergeInto, hc, ih]

theorem mem_mergeInto {cs : List (List String)} {s c2 : List String}
    (h : c2 ∈ mergeInto cs s) :
    c2 ∈ cs ∨ c2 = s ∨ ∃ c ∈ cs, c2 = setUnion c s := by
  induction cs with
  | nil =>
    simp only [mergeInto, List.mem_singleton] at h
    exact Or.inr (Or.inl h)
  | cons c cs ih =>
    by_cases hint : intersects s c
    · simp only [mergeInto, if_pos hint, List.mem_cons] at h
      rcases h with rfl | h2
      · exact Or.inr (Or.inr ⟨c, List.mem_cons_self c cs, rfl⟩)
      · exact Or.inl (List.mem_cons_of_mem c h2)
    · simp only [mergeInto, if_neg hint, List.mem_cons] at h
      rcases h with rfl | h2
      · exact Or.inl (List.mem_cons_self c2 cs)
      · rcases ih h2 with h3 | h3 | ⟨c3, hc3, h4⟩
        · exact Or.inl (List.mem_cons_of_mem c h3)
        · exact Or.inr (Or.inl h3)
        · exact Or.inr (Or.inr ⟨c3, List.mem_cons_of_mem c hc3, h4⟩)

/-! Lemmas about association-list lookup on a keyed map. -/

theorem lookupStr_map_key {β : Type} (g : String → β) (l : List String) (k : String) :
    lookupStr (l.map (fun t => (t, g t))) k = if k ∈ l then some (g k) else none := by
  induction l with
  | nil => simp [lookupStr]
  | cons t ts ih =>
    by_cases htk : t = k
    · subst htk
      simp [lookupStr, List.find?]
    · have hstep : lookupStr ((t :: ts).map (fun t => (t, g t))) k =
          lookupStr (ts.map (fun t => (t, g t))) k := by
        simp [lookupStr, List.find?, htk]
      have hkt : ¬ (k = t) := fun h => htk h.symm
      rw [hstep, ih]
      by_cases hk : k ∈ ts <;> simp [hk, List.mem_cons, hkt]

/-! Membership characterizations for the inverted index. -/

theorem mem_sortStrings {l : List String} {x : String} :
    x ∈ sortStrings l ↔ x ∈ l := mem_sortByKey

theorem mem_sortTerms {l : List String} {x : String} :
    x ∈ sortTerms l ↔ x ∈ l := mem_sortByKey

theorem mem_indexPairs {M : List (String × List String)} {t c : String} :
    (t, c) ∈ indexPairs M ↔
      ∃ p ∈ M, p.1 = c ∧ ∃ s ∈ p.2, normalize_term s = t ∧ t ≠ "" := by
  simp only [indexPairs, List.mem_flatMap, List.mem_map, List.mem_filter,
    decide_eq_true_eq, Prod.mk.injEq]
  constructor
  · rintro ⟨p, hp, t2, ⟨⟨s, hs, hns⟩, hne⟩, ht, hc⟩
    exact ⟨p, hp, hc, s, hs, ht ▸ hns, ht ▸ hne⟩
  · rintro ⟨p, hp, hc, s, hs, hns, hne⟩
    exact ⟨p, hp, t, ⟨⟨s, hs, hns⟩, hne⟩, rfl, hc⟩

theorem mem_cidsFor {M : List (String × List String)} {t c : String} :
    c ∈ cidsFor M t ↔ (t, c) ∈ indexPairs M := by
  unfold cidsFor
  rw [mem_sortStrings, mem_pyset]
  simp only [List.mem_map, List.mem_filter, decide_eq_true_eq]
  constructor
  · rintro ⟨q, ⟨hq, hq1⟩, hq2⟩
    rcases q with ⟨qt, qc⟩
    cases hq1
    cases hq2
    exact hq
  · intro h
    exact ⟨(t, c), ⟨h, rfl⟩, rfl⟩

theorem mem_indexKeys {M : List (String × List String)} {t : String} :
    t ∈ indexKeys M ↔ ∃ c, (t, c) ∈ indexPairs M := by
  unfold indexKeys
  rw [mem_sortStrings, mem_pyset]
  simp only [List.mem_map]
  constructor
  · rintro ⟨q, hq, hq1⟩
    rcases q with ⟨qt, qc⟩
    cases hq1
    exact ⟨qc, hq⟩
  · rintro ⟨c, hc⟩
    exact ⟨(t, c), hc, rfl⟩

theorem lookup_inverted_index (M : List (String × List String)) (t : String) :
    lookupStr (build_inverted_index M) t =
      if t ∈ indexKeys M then
        some { concept_ids := cidsFor M t,
               is_ambiguous := decide (1 < (cidsFor M t).length) }
      else none :=
  lookupStr_map_key _ (indexKeys M) t

/-- The concept-id list the inverted index reports for a term (empty when
the term is not indexed). -/
def entryCids (M : List (String × List String)) (t : String) : List String :=
  match lookupStr (build_inverted_index M) t with
  | some e => e.concept_ids
  | none => []

/-- The ambiguity flag the inverted index reports for a term (false when
the term is not indexed). -/
def ambiguousOf (M : List (String × List String)) (t : String) : Bool :=
  match lookupStr (build_inverted_index M) t with
  | some e => e.is_ambiguous
  | none => false

theorem mem_entryCids {M : List (String × List String)} {t c : String} :
    c ∈ entryCids M t ↔ (t, c) ∈ indexPairs M := by
  unfold entryCids
  rw [lookup_inverted_index]
  by_cases h : t ∈ indexKeys M
  · simp only [if_pos h]
    exact mem_cidsFor
  · simp only [if_neg h]
    constructor
    · intro hc
      cases hc
    · intro hc
      exact absurd (mem_indexKeys.mpr ⟨c, hc⟩) h

/-! Lemmas about whitespace stripping. -/

theorem exists_prefix_dropWhile (p : Char → Bool) :
    ∀ l : List Char, ∃ u, l = u ++ l.dropWhile p
  | [] => ⟨[], rfl⟩
  | a :: l => by
    cases hp : p a
    · exact ⟨[], by simp [List.dropWhile_cons, hp]⟩
    · obtain ⟨u, hu⟩ := exists_prefix_dropWhile p l
      exact ⟨a :: u, by simp [List.dropWhile_cons, hp, ← hu]⟩

theorem head_dropWhile_false (p : Char → Bool) :
    ∀ (l : List Char) (c : Char) (cs : List Char), l.dropWhile p = c :: cs → p c = false
  | [], _, _, h => by cases h
  | a :: l, c, cs, h => by
    cases hp : p a
    · rw [List.dropWhile_cons, hp] at h
      simp only [Bool.false_eq_true, if_false] at h
      cases h
      exact hp
    · rw [List.dropWhile_cons, hp] at h
      simp only [if_true] at h
      exact head_dropWhile_false p l c cs h

theorem dropWhile_eq_self_of_head {p : Char → Bool} {l : List Char}
    (h : ∀ c cs, l = c :: cs → p c = false) : l.dropWhile p = l := by
  cases l with
  | nil => rfl
  | cons c cs => rw [List.dropWhile_cons, h c cs rfl]; simp

theorem dropWhile_dropWhile (p : Char → Bool) (l : List Char) :
    (l.dropWhile p).dropWhile p = l.dropWhile p :=
  dropWhile_eq_self_of_head (fun c cs h => head_dropWhile_false p l c cs h)

theorem dropWhile_stripList (cs : List Char) :
    (stripList cs).dropWhile Char.isWhitespace = stripList cs := by
  apply dropWhile_eq_self_of_head
  intro c cs2 h
  obtain ⟨u, hu⟩ :=
    exists_prefix_dropWhile Char.isWhitespace (cs.dropWhile Char.isWhitespace).reverse
  have hA : cs.dropWhile Char.isWhitespace = stripList cs ++ u.reverse := by
    unfold stripList
    calc cs.dropWhile Char.isWhitespace
        = ((cs.dropWhile Char.isWhitespace).reverse).reverse := (List.reverse_reverse _).symm
      _ = (u ++ (cs.dropWhile Char.isWhitespace).reverse.dropWhile Char.isWhitespace).reverse := by
          rw [← hu]
      _ = ((cs.dropWhile Char.isWhitespace).reverse.dropWhile Char.isWhitespace).reverse
            ++ u.reverse := List.reverse_append _ _
  rw [h] at hA
  exact head_dropWhile_false _ cs c _ (by simpa using hA)

theorem stripList_idem (cs : List Char) : stripList (stripList cs) = stripList cs := by
  show (((stripList cs).dropWhile _).reverse.dropWhile _).reverse = stripList cs
  rw [dropWhile_stripList]
  unfold stripList
  rw [List.reverse_reverse, dropWhile_dropWhile]

theorem normalize_term_idem (t : String) :
    normalize_term (normalize_term t) = normalize_term t := by
  unfold normalize_term
  exact String.ext (stripList_idem t.data)

/-- A string whose character list does not start with whitespace. -/
def noLeadWS (t : String) : Prop := t.data.dropWhile Char.isWhitespace = t.data

theorem noLeadWS_normalize (t : String) : noLeadWS (normalize_term t) :=
  dropWhile_stripList t.data

theorem dropWhile_length_le (p : Char → Bool) :
    ∀ l : List Char, (l.dropWhile p).length ≤ l.length
  | [] => le_refl _
  | a :: l => by
    rw [List.dropWhile_cons]
    split
    · exact le_trans (dropWhile_length_le p l) (by simp)
    · exact le_refl _

theorem head_false_of_dropWhile_eq {p : Char → Bool} {c : Char} {l : List Char}
    (h : (c :: l).dropWhile p = c :: l) : p c = false := by
  cases hp : p c
  · rfl
  · rw [List.dropWhile_cons, hp, if_pos rfl] at h
    have hlen := congrArg List.length h
    have hle := dropWhile_length_le p l
    simp only [List.length_cons] at hlen
    omega

theorem noLeadWS_front {t : String} (h : noLeadWS t) {s u : List Char}
    (he : t.data = s ++ u) : s.dropWhile Char.isWhitespace = s := by
  cases s with
  | nil => rfl
  | cons c cs2 =>
    have hdata : t.data = c :: (cs2 ++ u) := by simpa using he
    have hc : Char.isWhitespace c = false := by
      apply @head_false_of_dropWhile_eq Char.isWhitespace c (cs2 ++ u)
      rw [← hdata]
      exact h
    rw [List.dropWhile_cons, hc]
    simp

theorem stripSuffix_data_front (t : String) :
    ∃ u, t.data = (stripSuffix t).data ++ u := by
  unfold stripSuffix
  split
  next => exact ⟨[], by simp⟩
  next =>
    split
    next rest heq =>
      refine ⟨'-' :: (t.data.reverse.takeWhile Char.isDigit).reverse, ?_⟩
      have hsplit : t.data.reverse.takeWhile Char.isDigit ++
          t.data.reverse.dropWhile Char.isDigit = t.data.reverse :=
        List.takeWhile_append_dropWhile Char.isDigit t.data.reverse
      rw [heq] at hsplit
      clear heq
      calc t.data = t.data.reverse.reverse := (List.reverse_reverse _).symm
        _ = (t.data.reverse.takeWhile Char.isDigit ++ ('-' :: rest)).reverse := by
            rw [hsplit]
        _ = ('-' :: rest).reverse ++ (t.data.reverse.takeWhile Char.isDigit).reverse :=
            List.reverse_append _ _
        _ = (rest.reverse ++ ['-']) ++ (t.data.reverse.takeWhile Char.isDigit).reverse := by
            simp
        _ = rest.reverse ++ ('-' :: (t.data.reverse.takeWhile Char.isDigit).reverse) := by
            simp
    next => exact ⟨[], by simp⟩

theorem noLeadWS_stripSuffix {t : String} (h : noLeadWS t) : noLeadWS (stripSuffix t) := by
  obtain ⟨u, hu⟩ := stripSuffix_data_front t
  exact noLeadWS_front h hu

/-! Shape lemmas for the canonical pass and the mergeable passes. -/

theorem processCanonical_aux (json : List (String × List String)) :
    ∀ acc : List (List String),
      json.foldl (fun concepts p =>
        let normalized := normalizeGroup (p.1 :: p.2)
        if normalized = [] then concepts else concepts ++ [normalized]) acc =
      acc ++ json.filterMap (fun p =>
        let n := normalizeGroup (p.1 :: p.2)
        if n = [] then none else some n) := by
  induction json with
  | nil => intro acc; simp
  | cons p ps ih =>
    intro acc
    rw [List.foldl_cons, List.filterMap_cons, ih]
    by_cases h : normalizeGroup (p.1 :: p.2) = []
    · simp [h]
    · simp [h]

theorem processCanonical_eq (json : List (String × List String)) :
    processCanonical json = json.filterMap (fun p =>
      let n := normalizeGroup (p.1 :: p.2)
      if n = [] then none else some n) := by
  unfold processCanonical
  simpa using processCanonical_aux json []

theorem processCanonical_skip (l1 l2 : List (String × List String))
    (p : String × List String) (h : normalizeGroup (p.1 :: p.2) = []) :
    processCanonical (l1 ++ p :: l2) = processCanonical (l1 ++ l2) := by
  unfold processCanonical
  rw [List.foldl_append, List.foldl_append, List.foldl_cons]
  congr 1
  simp [h]

theorem processMergeable_skip (init : List (List String)) (l1 l2 : List (List String))
    (g : List String) (h : normalizeGroup g = []) :
    processMergeable init (l1 ++ g :: l2) = processMergeable init (l1 ++ l2) := by
  unfold processMergeable
  rw [List.foldl_append, List.foldl_append, List.foldl_cons]
  congr 1
  simp [h]

/-- Every member of every active concept is the normalization of some raw
term: true after the canonical pass and preserved by mergeable passes. -/
theorem normImage_processCanonical {json : List (String × List String)}
    {c : List String} (hc : c ∈ processCanonical json) {el : String} (hel : el ∈ c) :
    ∃ r, el = normalize_term r := by
  rw [processCanonical_eq] at hc
  rcases List.mem_filterMap.mp hc with ⟨p, _, hp⟩
  by_cases h : normalizeGroup (p.1 :: p.2) = []
  · simp [h] at hp
  · simp only [h, if_neg, if_false] at hp
    cases hp
    rcases mem_normalizeGroup.mp hel with ⟨⟨r, _, hr⟩, _⟩
    exact ⟨r, hr.symm⟩

theorem normImage_processMergeable {gs : List (List String)} :
    ∀ {cs : List (List String)},
      (∀ c ∈ cs, ∀ el ∈ c, ∃ r, el = normalize_term r) →
      ∀ c ∈ processMergeable cs gs, ∀ el ∈ c, ∃ r, el = normalize_term r := by
  induction gs with
  | nil => intro cs h; exact h
  | cons g gs ih =>
    intro cs h
    have hstep : ∀ c ∈ (if normalizeGroup g = [] then cs else mergeInto cs (normalizeGroup g)),
        ∀ el ∈ c, ∃ r, el = normalize_term r := by
      by_cases hg : normalizeGroup g = []
      · simpa [hg] using h
      · simp only [hg, if_neg, if_false]
        intro c hc el hel
        rcases mem_mergeInto hc with h2 | rfl | ⟨c0, hc0, rfl⟩
        · exact h c h2 el hel
        · rcases mem_normalizeGroup.mp hel with ⟨⟨r, _, hr⟩, _⟩
          exact ⟨r, hr.symm⟩
        · rcases mem_setUnion.mp hel with h3 | h3
          · exact h c0 hc0 el h3
          · rcases mem_normalizeGroup.mp h3 with ⟨⟨r, _, hr⟩, _⟩
            exact ⟨r, hr.symm⟩
    intro c hc el hel
    have : processMergeable cs (g :: gs) =
        processMergeable (if normalizeGroup g = [] then cs else mergeInto cs (normalizeGroup g)) gs := by
      unfold processMergeable
      rw [List.foldl_cons]
    rw [this] at hc
    exact ih hstep c hc el hel

/-! Lemmas about the finalization phase and assorted helpers. -/

theorem finalize_keys (concepts : List (List String)) :
    (finalizeConcepts concepts).map Prod.fst =
      (List.range (finalizeConcepts concepts).length).map (fun i => conceptId (i + 1)) := by
  unfold finalizeConcepts
  rw [List.map_map, List.length_map, List.enum_length]
  have h : (Prod.fst ∘ fun p : Nat × List String =>
      (conceptId (p.1 + 1), sortTerms (pyset (p.2.map stripSuffix)))) =
      (fun i => conceptId (i + 1)) ∘ Prod.fst := rfl
  rw [h, ← List.map_map, List.enum_map_fst]

theorem finalize_members {concepts : List (List String)} {q : String × List String}
    (hq : q ∈ finalizeConcepts concepts) :
    ∃ c ∈ concepts, q.2 = sortTerms (pyset (c.map stripSuffix)) := by
  unfold finalizeConcepts at hq
  rcases List.mem_map.mp hq with ⟨p, hp, heq⟩
  have hc : p.2 ∈ concepts := by
    rw [List.enum_eq_zip_range] at hp
    exact (List.of_mem_zip hp).2
  exact ⟨p.2, hc, by rw [← heq]⟩

theorem one_lt_length_of_two_mem {l : List String} {a b : String}
    (ha : a ∈ l) (hb : b ∈ l) (hne : a ≠ b) : 1 < l.length := by
  cases l with
  | nil => cases ha
  | cons x xs =>
    cases xs with
    | nil =>
      rw [List.mem_singleton] at ha hb
      exact absurd (ha.trans hb.symm) hne
    | cons y ys =>
      simp only [List.length_cons]
      omega

/-- Unfolding of expand_term on a term present in the index. -/
theorem expand_term_found (synonyms : List (String × List String))
    (inverted_index : List (String × IndexEntry)) (term : String) (e : IndexEntry)
    (h : lookupStr inverted_index term = some e) :
    expand_term synonyms inverted_index term =
      { original := term, found := true, is_ambiguous := e.is_ambiguous,
        concept_ids := e.concept_ids,
        expanded_terms := unionSynonyms synonyms e.concept_ids,
        query := if 0 < (unionSynonyms synonyms e.concept_ids).length then
            "(" ++ String.intercalate " OR "
              ((sortStrings (unionSynonyms synonyms e.concept_ids)).map quoteIfSpace) ++ ")"
          else term } := by
  unfold expand_term
  rw [h]

/-! Claim theorems. -/

/-- C2: every canonical group whose normalized term set is non-empty is
appended as a new concept unconditionally — the canonical pass equals a
filterMap that keeps each non-empty normalized group as its own concept,
so canonical groups are never merged with each other even when they share
a term; and on the two canonical groups AM/Agujero macular and
AM/Astigmatismo mixto, clustering produces two distinct concepts each
containing AM, and the index entry for AM is ambiguous with exactly the
two concept ids. -/
theorem C2_canonical_never_merged :
    (∀ json : List (String × List String),
        processCanonical json = json.filterMap (fun p =>
          let n := normalizeGroup (p.1 :: p.2)
          if n = [] then none else some n)) ∧
    (∀ (json : List (String × List String)) (p : String × List String),
        p ∈ json → normalizeGroup (p.1 :: p.2) ≠ [] →
        normalizeGroup (p.1 :: p.2) ∈ processCanonical json) ∧
    build_concept_map [] [("AM", ["Agujero macular"]), ("AM", ["Astigmatismo mixto"])] [] =
      [("C0001", ["Agujero macular", "AM"]), ("C0002", ["AM", "Astigmatismo mixto"])] ∧
    lookupStr (build_inverted_index
        (build_concept_map [] [("AM", ["Agujero macular"]), ("AM", ["Astigmatismo mixto"])] []))
        "AM" =
      some { concept_ids := ["C0001", "C0002"], is_ambiguous := true } := by
  refine ⟨processCanonical_eq, ?_, by decide, by decide⟩
  intro json p hp hne
  rw [processCanonical_eq]
  exact List.mem_filterMap.mpr ⟨p, hp, by simp [hne]⟩

/-- Witness for C2 at a concrete canonical input. -/
theorem C2_canonical_never_merged_witness :
    normalizeGroup ("AM" :: ["Agujero macular"]) ≠ [] ∧
    normalizeGroup ("AM" :: ["Agujero macular"]) ∈
      processCanonical [("AM", ["Agujero macular"]), ("AM", ["Astigmatismo mixto"])] :=
  ⟨by decide,
    C2_canonical_never_merged.2.1
      [("AM", ["Agujero macular"]), ("AM", ["Astigmatismo mixto"])]
      ("AM", ["Agujero macular"]) (by decide) (by decide)⟩

/-- C3: first-match-wins merging — a mergeable group whose set intersects
no concept before c and does intersect c is unioned into c only, every
other concept unchanged; a group intersecting nothing is appended; and in
the concrete X/foo, Y/bar example the group foo/bar joins the X concept
while the Y concept stays unchanged. -/
theorem C3_first_match_wins :
    (∀ (pre : List (List String)) (c : List String) (post : List (List String))
        (s : List String),
        (∀ c2 ∈ pre, intersects s c2 = false) → intersects s c = true →
        mergeInto (pre ++ c :: post) s = pre ++ setUnion c s :: post) ∧
    (∀ (cs : List (List String)) (s : List String),
        (∀ c ∈ cs, intersects s c = false) → mergeInto cs s = cs ++ [s]) ∧
    build_concept_map [["foo", "bar"]] [("X", ["foo"]), ("Y", ["bar"])] [] =
      [("C0001", ["bar", "foo", "X"]), ("C0002", ["bar", "Y"])] :=
  ⟨mergeInto_first_match, mergeInto_no_match, by decide⟩

/-- Witness for C3: the merge step applied at a concrete concept list. -/
theorem C3_first_match_wins_witness :
    mergeInto ([["A"]] ++ ["foo"] :: [["B", "zz"], ["zz", "ww"]]) ["foo", "zz"] =
      [["A"]] ++ setUnion ["foo"] ["foo", "zz"] :: [["B", "zz"], ["zz", "ww"]] :=
  C3_first_match_wins.1 [["A"]] ["foo"] [["B", "zz"], ["zz", "ww"]] ["foo", "zz"]
    (by decide) (by decide)

/-- C5: a raw group all of whose terms normalize to empty strings is
dropped silently — removing it from any of the three sources leaves the
built Concept Map unchanged (so identifiers stay dense and nothing is
raised). -/
theorem C5_empty_groups_dropped :
    (∀ (sin1 sin2 : List (List String)) (g : List String)
        (json : List (String × List String)) (csv : List (String × String)),
        normalizeGroup g = [] →
        build_concept_map (sin1 ++ g :: sin2) json csv =
          build_concept_map (sin1 ++ sin2) json csv) ∧
    (∀ (sin : List (List String)) (json1 json2 : List (String × List String))
        (p : String × List String) (csv : List (String × String)),
        normalizeGroup (p.1 :: p.2) = [] →
        build_concept_map sin (json1 ++ p :: json2) csv =
          build_concept_map sin (json1 ++ json2) csv) ∧
    (∀ (sin : List (List String)) (json : List (String × List String))
        (csv1 csv2 : List (String × String)) (r : String × String),
        normalizeGroup [r.1, r.2] = [] →
        build_concept_map sin json (csv1 ++ r :: csv2) =
          build_concept_map sin json (csv1 ++ csv2)) := by
  refine ⟨?_, ?_, ?_⟩
  · intro sin1 sin2 g json csv h
    unfold build_concept_map
    rw [processMergeable_skip _ sin1 sin2 g h]
  · intro sin json1 json2 p csv h
    unfold build_concept_map
    rw [processCanonical_skip json1 json2 p h]
  · intro sin json csv1 csv2 r h
    unfold build_concept_map
    rw [List.map_append, List.map_cons, processMergeable_skip _ _ _ _ h, ← List.map_append]

/-- Witness for C5 at a concrete input containing a whitespace-only group. -/
theorem C5_empty_groups_dropped_witness :
    normalizeGroup ["  ", ""] = [] ∧
    build_concept_map ([["a"]] ++ ["  ", ""] :: [["b"]]) [("B", ["b"])] [] =
      build_concept_map ([["a"]] ++ [["b"]]) [("B", ["b"])] [] :=
  ⟨by decide,
    C5_empty_groups_dropped.1 [["a"]] [["b"]] ["  ", ""] [("B", ["b"])] [] (by decide)⟩

/-- C6: expanding a term absent from the inverted index returns found =
false, the singleton expanded-term set holding the literal term, and the
term wrapped in double quotes as the query; no error path exists. -/
theorem C6_not_found_expansion (synonyms : List (String × List String))
    (inverted_index : List (String × IndexEntry)) (term : String)
    (h : lookupStr inverted_index term = none) :
    expand_term synonyms inverted_index term =
      { original := term, found := false, is_ambiguous := false, concept_ids := [],
        expanded_terms := [term], query := "\"" ++ term ++ "\"" } := by
  unfold expand_term
  rw [h]

/-- Witness for C6 on the spec's XYZ123 example. -/
theorem C6_not_found_expansion_witness :
    lookupStr [("AM", { concept_ids := ["C0001"], is_ambiguous := false : IndexEntry })]
        "XYZ123" = none ∧
    expand_term [("C0001", ["AM"])]
        [("AM", { concept_ids := ["C0001"], is_ambiguous := false })] "XYZ123" =
      { original := "XYZ123", found := false, is_ambiguous := false, concept_ids := [],
        expanded_terms := ["XYZ123"], query := "\"XYZ123\"" } :=
  ⟨by decide,
    C6_not_found_expansion [("C0001", ["AM"])]
      [("AM", { concept_ids := ["C0001"], is_ambiguous := false })] "XYZ123" (by decide)⟩

/-- C7 counterexample: the source quotes an expanded term only when it
contains a space character, not any whitespace — a term containing a tab
but no space stays unquoted, refuting the claim as stated. -/
theorem C7_whitespace_quoting_counterexample :
    ("a\tb".data.any Char.isWhitespace) = true ∧
    (expand_term [("C0001", ["a\tb"])]
        [("t0", { concept_ids := ["C0001"], is_ambiguous := false })] "t0").query =
      "(a\tb)" ∧
    (expand_term [("C0001", ["a\tb"])]
        [("t0", { concept_ids := ["C0001"], is_ambiguous := false })] "t0").query ≠
      "(\"a\tb\")" := by decide

/-- C7 (amended): for a found term with non-empty expanded union, the
query is the parenthesized OR-disjunction of the expanded terms in
case-sensitive lexicographic order, each term quoted when it contains a
space character (U+0020); the string is the same for every permutation of
the union, hence independent of concept iteration order, and the sorted
sequence is ascending in code-point order. -/
theorem C7_query_construction (synonyms : List (String × List String))
    (inverted_index : List (String × IndexEntry)) (term : String) (e : IndexEntry)
    (l : List String)
    (h1 : lookupStr inverted_index term = some e)
    (h2 : unionSynonyms synonyms e.concept_ids ≠ [])
    (hl : l.Perm (unionSynonyms synonyms e.concept_ids)) :
    (expand_term synonyms inverted_index term).query =
      "(" ++ String.intercalate " OR " ((sortStrings l).map quoteIfSpace) ++ ")" ∧
    (sortStrings l).Pairwise leStr := by
  refine ⟨?_, sortStrings_sorted l⟩
  rw [expand_term_found synonyms inverted_index term e h1]
  have hlen : 0 < (unionSynonyms synonyms e.concept_ids).length :=
    List.length_pos.mpr h2
  simp only [hlen, if_pos]
  rw [sortStrings_eq_of_perm hl]

/-- Witness for C7 at a concrete index, applied to a shuffled copy of the
expanded union. -/
theorem C7_query_construction_witness :
    (expand_term [("C0001", ["a b", "c"]), ("C0002", ["B"])]
        [("c", { concept_ids := ["C0001", "C0002"], is_ambiguous := true })] "c").query =
      "(" ++ String.intercalate " OR " ((sortStrings ["c", "B", "a b"]).map quoteIfSpace)
        ++ ")" ∧
    (sortStrings ["c", "B", "a b"]).Pairwise leStr :=
  C7_query_construction [("C0001", ["a b", "c"]), ("C0002", ["B"])]
    [("c", { concept_ids := ["C0001", "C0002"], is_ambiguous := true })] "c"
    { concept_ids := ["C0001", "C0002"], is_ambiguous := true }
    ["c", "B", "a b"] (by decide) (by decide) (by decide)

/-- C8 counterexample: a found term whose concepts are all missing from
the Concept Map yields the bare literal term as query, not the quoted
literal the claim states. -/
theorem C8_empty_union_counterexample :
    (expand_term [] [("x", { concept_ids := ["C9999"], is_ambiguous := false })] "x") =
      { original := "x", found := true, is_ambiguous := false, concept_ids := ["C9999"],
        expanded_terms := [], query := "x" } ∧
    ("x" : String) ≠ "\"x\"" := by decide

/-- C8 (amended): for a found term whose matching concepts yield an empty
expanded union, the result keeps found = true, an empty expanded set, and
the query string is the literal term itself, unquoted (the default
value). -/
theorem C8_empty_union_query (synonyms : List (String × List String))
    (inverted_index : List (String × IndexEntry)) (term : String) (e : IndexEntry)
    (h1 : lookupStr inverted_index term = some e)
    (h2 : unionSynonyms synonyms e.concept_ids = []) :
    expand_term synonyms inverted_index term =
      { original := term, found := true, is_ambiguous := e.is_ambiguous,
        concept_ids := e.concept_ids, expanded_terms := [], query := term } := by
  rw [expand_term_found synonyms inverted_index term e h1]
  simp [h2]

/-- Witness for C8 at a concrete dangling index entry. -/
theorem C8_empty_union_query_witness :
    expand_term [("C0001", ["AM"])]
        [("y", { concept_ids := ["C7777", "C8888"], is_ambiguous := true })] "y" =
      { original := "y", found := true, is_ambiguous := true,
        concept_ids := ["C7777", "C8888"], expanded_terms := [], query := "y" } :=
  C8_empty_union_query [("C0001", ["AM"])]
    [("y", { concept_ids := ["C7777", "C8888"], is_ambiguous := true })] "y"
    { concept_ids := ["C7777", "C8888"], is_ambiguous := true } (by decide) (by decide)

/-- C1 counterexample: two canonical groups that share the abbreviation AM
(disambiguated upstream with hyphen-digit suffixes, stripped during
finalization) produce a Concept Map whose two distinct concepts both
contain AM, so concept term-sets are not pairwise disjoint. -/
theorem C1_disjointness_counterexample :
    build_concept_map [] [("AM-1", ["Agujero macular"]), ("AM-2", ["Astigmatismo mixto"])] [] =
      [("C0001", ["Agujero macular", "AM"]), ("C0002", ["AM", "Astigmatismo mixto"])] ∧
    ("AM" ∈ ["Agujero macular", "AM"] ∧ "AM" ∈ ["AM", "Astigmatismo mixto"]) ∧
    ("C0001" : String) ≠ "C0002" := by decide

/-- C1 (amended): concept term-sets need not be pairwise disjoint — a term
may belong to two distinct concepts; every term shared by two distinct
concepts (with non-empty stripped form) is reported as ambiguous by the
inverted index built from the Concept Map. -/
theorem C1_shared_term_flagged_ambiguous (M : List (String × List String))
    (c1 c2 t : String) (ts1 ts2 : List String)
    (h1 : (c1, ts1) ∈ M) (h2 : (c2, ts2) ∈ M) (hne : c1 ≠ c2)
    (ht1 : t ∈ ts1) (ht2 : t ∈ ts2) (hnz : normalize_term t ≠ "") :
    ambiguousOf M (normalize_term t) = true := by
  have hp1 : (normalize_term t, c1) ∈ indexPairs M :=
    mem_indexPairs.mpr ⟨(c1, ts1), h1, rfl, t, ht1, rfl, hnz⟩
  have hp2 : (normalize_term t, c2) ∈ indexPairs M :=
    mem_indexPairs.mpr ⟨(c2, ts2), h2, rfl, t, ht2, rfl, hnz⟩
  have hk : normalize_term t ∈ indexKeys M := mem_indexKeys.mpr ⟨c1, hp1⟩
  have hlen : 1 < (cidsFor M (normalize_term t)).length :=
    one_lt_length_of_two_mem (mem_cidsFor.mpr hp1) (mem_cidsFor.mpr hp2) hne
  unfold ambiguousOf
  rw [lookup_inverted_index, if_pos hk]
  simpa using hlen

/-- Witness for C1 on a two-concept map sharing the term AM. -/
theorem C1_shared_term_flagged_ambiguous_witness :
    ambiguousOf [("C0001", ["AM"]), ("C0002", ["AM"])] (normalize_term "AM") = true :=
  C1_shared_term_flagged_ambiguous [("C0001", ["AM"]), ("C0002", ["AM"])]
    "C0001" "C0002" "AM" ["AM"] ["AM"]
    (by decide) (by decide) (by decide) (by decide) (by decide) (by decide)

/-- C4: index round-trip on a well-formed Concept Map (member terms are
normalized non-empty strings, as the data model requires of Terms): every
(concept, term) pair is recorded under the term; every concept id listed
under a term is a concept whose member list contains the term; each
entry's concept_ids is sorted; is_ambiguous holds iff more than one
concept id is listed. -/
theorem C4_index_round_trip (M : List (String × List String))
    (hwf : ∀ p ∈ M, ∀ t ∈ p.2, normalize_term t = t ∧ t ≠ "") :
    (∀ p ∈ M, ∀ t ∈ p.2, p.1 ∈ entryCids M t) ∧
    (∀ t c : String, c ∈ entryCids M t →
        M.any (fun p => decide (p.1 = c) && decide (t ∈ p.2)) = true) ∧
    (∀ t : String, (entryCids M t).Pairwise leStr) ∧
    (∀ (t : String) (e : IndexEntry), lookupStr (build_inverted_index M) t = some e →
        e.concept_ids = entryCids M t ∧ (e.is_ambiguous = true ↔ 1 < e.concept_ids.length)) := by
  refine ⟨?_, ?_, ?_, ?_⟩
  · intro p hp t ht
    exact mem_entryCids.mpr (mem_indexPairs.mpr
      ⟨p, hp, rfl, t, ht, (hwf p hp t ht).1, (hwf p hp t ht).2⟩)
  · intro t c hc
    rcases mem_indexPairs.mp (mem_entryCids.mp hc) with ⟨p, hp, hpc, s, hs, hns, _⟩
    have hst : s = t := by rw [← (hwf p hp s hs).1, hns]
    exact List.any_eq_true.mpr ⟨p, hp, by simp [hpc, hst ▸ hs]⟩
  · intro t
    unfold entryCids
    rw [lookup_inverted_index]
    by_cases h : t ∈ indexKeys M
    · rw [if_pos h]
      exact sortStrings_sorted _
    · rw [if_neg h]
      exact List.Pairwise.nil
  · intro t e he
    rw [lookup_inverted_index] at he
    by_cases h : t ∈ indexKeys M
    · rw [if_pos h] at he
      injection he with he2
      subst he2
      constructor
      · unfold entryCids
        rw [lookup_inverted_index, if_pos h]
      · exact decide_eq_true_iff
    · rw [if_neg h] at he
      cases he

/-- Witness for C4 on a concrete well-formed two-concept map. -/
theorem C4_index_round_trip_witness :
    "C0001" ∈ entryCids [("C0001", ["AM", "x"]), ("C0002", ["AM"])] "AM" :=
  (C4_index_round_trip [("C0001", ["AM", "x"]), ("C0002", ["AM"])] (by decide)).1
    ("C0001", ["AM", "x"]) (by decide) "AM" (by decide)

/-- C9 counterexample: suffix stripping can leave trailing whitespace —
the canonical group with sole term a-space-hyphen-1 yields the member
a-space, which is not equal to its own stripped form, refuting the
no-trailing-whitespace clause. -/
theorem C9_trailing_whitespace_counterexample :
    build_concept_map [] [("a -1", [])] [] = [("C0001", ["a "])] ∧
    normalize_term "a " ≠ "a " := by decide

/-- C9 (amended): Concept Map keys are C%04d identifiers, zero-padded to
4 digits, dense in creation order; each member list is sorted
case-insensitively (ties left in set-iteration order), has no duplicates
and no leading whitespace; trailing whitespace can survive when a
hyphen-digit suffix is stripped after a space. -/
theorem C9_concept_map_well_formed (sin : List (List String))
    (json : List (String × List String)) (csv : List (String × String)) :
    (build_concept_map sin json csv).map Prod.fst =
      (List.range (build_concept_map sin json csv).length).map (fun i => conceptId (i + 1)) ∧
    (∀ q ∈ build_concept_map sin json csv,
        q.2.Pairwise leLower ∧ q.2.Nodup ∧ ∀ t ∈ q.2, noLeadWS t) := by
  constructor
  · exact finalize_keys _
  · intro q hq
    have hnorm : ∀ c ∈ processMergeable (processMergeable (processCanonical json) sin)
        (csv.map (fun p => [p.1, p.2])), ∀ el ∈ c, ∃ r, el = normalize_term r :=
      normImage_processMergeable (normImage_processMergeable
        (fun c hc el hel => normImage_processCanonical hc hel))
    rcases finalize_members hq with ⟨c, hc, hq2⟩
    refine ⟨?_, ?_, ?_⟩
    · rw [hq2]
      exact sortTerms_sorted _
    · rw [hq2]
      exact ((perm_sortByKey lowerStr _).nodup_iff).mpr (nodup_pyset _)
    · intro t ht
      rw [hq2] at ht
      rcases List.mem_map.mp (mem_pyset.mp (mem_sortTerms.mp ht)) with ⟨el, hel, rfl⟩
      rcases hnorm c hc el hel with ⟨r, rfl⟩
      exact noLeadWS_stripSuffix (noLeadWS_normalize r)

/-- Witness for C9: the surviving padded member still has no leading
whitespace. -/
theorem C9_concept_map_well_formed_witness :
    noLeadWS "a " :=
  ((C9_concept_map_well_formed [] [("a -1", [])] []).2 ("C0001", ["a "]) (by decide)).2.2
    "a " (by decide)

/-- C10: the index builder re-normalizes member terms — every key of the
built inverted index is non-empty and equal to its own stripped form, and
a concept id is listed under a term exactly when some member of that
concept strips to the (non-empty) term, so padded members collapse with
their stripped form and members empty after stripping are omitted. -/
theorem C10_index_keys_normalized (M : List (String × List String)) :
    (∀ q ∈ build_inverted_index M, q.1 ≠ "" ∧ normalize_term q.1 = q.1) ∧
    (∀ t c : String, c ∈ entryCids M t ↔
        ∃ p ∈ M, p.1 = c ∧ ∃ s ∈ p.2, normalize_term s = t ∧ t ≠ "") := by
  constructor
  · intro q hq
    have hk : q.1 ∈ indexKeys M := by
      rcases List.mem_map.mp hq with ⟨t, ht, heq⟩
      rw [← heq]
      exact ht
    rcases mem_indexKeys.mp hk with ⟨c, hc⟩
    rcases mem_indexPairs.mp hc with ⟨p, hp, hpc, s, hs, hns, hne⟩
    exact ⟨hne, by rw [← hns, normalize_term_idem]⟩
  · intro t c
    rw [mem_entryCids, mem_indexPairs]

/-- Witness for C10: a padded member indexes under its stripped form. -/
theorem C10_index_keys_normalized_witness :
    ("a" : String) ≠ "" ∧ normalize_term "a" = "a" :=
  (C10_index_keys_normalized [("C0001", ["  a "])]).1
    ("a", { concept_ids := ["C0001"], is_ambiguous := false }) (by decide)

end Tesauro
